/-
A verification development for the RegionScanner repository (src/lib.rs).

Modelling conventions (shallow embedding):
* Rust `HashMap<K, V>` is modelled as an association list `List (K × V)`
  with a first-match lookup (`lookupKV`).  All statements about maps are
  phrased through `lookupKV`, so the (unspecified) iteration order of the
  hash map never matters.
* Rust `f64` arithmetic is modelled as exact rational arithmetic (`ℚ`).
  The only place where `f64` special values matter is the weight assertion
  in `counts_add_weighted`: when the total area is `0`, Rust computes
  `0.0 / 0.0 = NaN` and the `assert!((0.0..=1.0).contains(&a_weight))`
  panics.  The model makes `merge_frequencies_into` return `none` exactly
  in that situation (a common block name and total area zero); for a
  positive total area the weight is a genuine rational in `[0,1]` and the
  assertion always holds, so no other panic is possible.
* Rust numeric field types `u64` / `usize` are modelled as `ℕ`; block
  levels (`isize`) as `ℤ`.
* Panics are modelled as `Option.none` results.
-/
import Mathlib

set_option linter.unusedVariables false

namespace RegionScanner

universe u v

variable {α : Type u} {β : Type v} {γ : Type*}

/-- First-match lookup in an association list; models `HashMap::get`. -/
def lookupKV [DecidableEq α] (k : α) : List (α × β) → Option β
  | [] => none
  | p :: rest => if p.1 = k then some p.2 else lookupKV k rest

@[simp]
theorem lookupKV_nil [DecidableEq α] (k : α) : lookupKV k ([] : List (α × β)) = none := rfl

@[simp]
theorem lookupKV_cons [DecidableEq α] (k : α) (p : α × β) (l : List (α × β)) :
    lookupKV k (p :: l) = if p.1 = k then some p.2 else lookupKV k l := rfl

/-- Mapping the values of an association list (key-dependently) commutes
with lookup. -/
theorem lookupKV_map_values [DecidableEq α] (k : α) (g : α → β → γ) (l : List (α × β)) :
    lookupKV k (l.map fun p => (p.1, g p.1 p.2)) = (lookupKV k l).map (g k) := by
  induction l with
  | nil => rfl
  | cons p rest ih =>
      by_cases h : p.1 = k
      · subst h; simp [lookupKV]
      · simp [lookupKV, h, ih]

theorem lookupKV_append [DecidableEq α] (k : α) (l₁ l₂ : List (α × β)) :
    lookupKV k (l₁ ++ l₂) =
      (match lookupKV k l₁ with
        | some v => some v
        | none => lookupKV k l₂) := by
  induction l₁ with
  | nil => rfl
  | cons p rest ih =>
      by_cases h : p.1 = k <;> simp [lookupKV, h, ih]

/-- Filtering by a predicate on the key commutes with lookup. -/
theorem lookupKV_filter_key [DecidableEq α] (k : α) (q : α → Bool) (l : List (α × β)) :
    lookupKV k (l.filter fun p => q p.1) = if q k then lookupKV k l else none := by
  induction l with
  | nil => simp
  | cons p rest ih =>
      by_cases h : p.1 = k
      · subst h
        by_cases hq : q p.1 <;> simp [List.filter, hq, lookupKV, ih]
      · by_cases hq : q p.1 <;> simp [List.filter, hq, lookupKV, h, ih]

/-- Lookup in a list built by tagging each key of `keys` with `f`. -/
theorem lookupKV_graph [DecidableEq α] (k : α) (f : α → β) (keys : List α) :
    lookupKV k (keys.map fun j => (j, f j)) = if k ∈ keys then some (f k) else none := by
  induction keys with
  | nil => simp
  | cons j rest ih =>
      by_cases h : j = k
      · subst h; simp [lookupKV]
      · simp [lookupKV, h, ih, Ne.symm h]

/-- A key has a successful lookup exactly when it occurs among the keys. -/
theorem lookupKV_isSome_iff [DecidableEq α] (k : α) (l : List (α × β)) :
    (lookupKV k l).isSome = true ↔ k ∈ l.map Prod.fst := by
  induction l with
  | nil => simp
  | cons p rest ih =>
      by_cases h : p.1 = k
      · simp [lookupKV, h, ih]
      · rw [lookupKV_cons, if_neg h]
        rw [ih]
        simp only [List.map_cons, List.mem_cons]
        constructor
        · exact Or.inr
        · rintro (he | hm)
          · exact absurd he.symm h
          · exact hm

/-! ## Data model (from `src/lib.rs`) -/

/-- `enum RegionVersion` from `lib.rs`. -/
inductive RegionVersion where
  | Pre118
  | AtLeast118
deriving DecidableEq, Repr

/-- `enum ProtoOption` from `lib.rs`. -/
inductive ProtoOption where
  | Skip
  | Include
  | OnlyProto
deriving DecidableEq, Repr

/-- A per-block-level frequency map: `HashMap<isize, f64>` in the source. -/
abbrev LevelFreqs := List (ℤ × ℚ)

/-- `HashMap<String, HashMap<isize, f64>>` in the source. -/
abbrev FreqMap := List (String × LevelFreqs)

/-- `struct BlockFrequencies` from `lib.rs`. -/
structure BlockFrequencies where
  frequencies : FreqMap
  blocks_counted : ℕ
  chunks_counted : ℕ
  protochunks_seen : ℕ
  area : ℕ
  dimension : String
deriving DecidableEq, Repr

/-- `BlockFrequencies::empty` from `lib.rs`. -/
def BlockFrequencies.empty (dimension : String) : BlockFrequencies where
  frequencies := []
  blocks_counted := 0
  chunks_counted := 0
  protochunks_seen := 0
  area := 0
  dimension := dimension

/-- `struct Zone` from `lib.rs`. -/
structure Zone where
  from_x : ℤ
  to_x : ℤ
  from_z : ℤ
  to_z : ℤ
deriving DecidableEq, Repr

/-- `Zone::new` from `lib.rs`.  The Rust function panics (modelled as
`none`) when `to_x <= from_x`; it performs no check on the `z` axis. -/
def Zone.new (from_x to_x from_z to_z : ℤ) : Option Zone :=
  if to_x ≤ from_x then none
  else some { from_x := from_x, to_x := to_x, from_z := from_z, to_z := to_z }

/-- `impl From<Vec<isize>> for Zone` from `lib.rs`: panics (`none`) on a
vector of fewer than four elements, otherwise delegates to `Zone::new`
on the first four. -/
def Zone.fromVec (vec : List ℤ) : Option Zone :=
  match vec with
  | a :: b :: c :: d :: _ => Zone.new a b c d
  | _ => none

/-! ## MergeEngine (`merge_frequencies_into`, `counts_add_weighted`) -/

/-- `counts_add_weighted` from `lib.rs`: the `a`-map is replaced, on the
union of the key sets, by `a[k]*w + b[k]*(1-w)` with missing keys read
as `0.0`.  (The Rust `assert!` on the weight range is handled at the
caller, see the header comment.) -/
def counts_add_weighted (a b : LevelFreqs) (a_weight : ℚ) : LevelFreqs :=
  let keys : List ℤ := (a.map Prod.fst ++ b.map Prod.fst).dedup
  keys.map fun k =>
    (k, (lookupKV k a).getD 0 * a_weight + (lookupKV k b).getD 0 * (1 - a_weight))

/-- One entry of `main.frequencies` after the merge loop: the occupied
branch applies `counts_add_weighted`, a name absent from `other` is left
untouched. -/
def mergeMapEntry (otherF : FreqMap) (alpha : ℚ) (name : String) (freq : LevelFreqs) :
    LevelFreqs :=
  match lookupKV name otherF with
  | some other_freq => counts_add_weighted freq other_freq alpha
  | none => freq

/-- The frequency-map part of `merge_frequencies_into`: block names in
both maps get `counts_add_weighted`, names only in `main` stay
untouched, names only in `other` are inserted unchanged (the vacant
branch of the Rust `match`). -/
def mergeFreqMaps (mainF otherF : FreqMap) (alpha : ℚ) : FreqMap :=
  (mainF.map fun p => (p.1, mergeMapEntry otherF alpha p.1 p.2)) ++
  (otherF.filter fun p => !(lookupKV p.1 mainF).isSome)

/-- `merge_frequencies_into` from `lib.rs`.  The result is `none`
exactly when the Rust code panics: a block name occurs in both maps and
`main.area + other.area = 0`, in which case `alpha = 0.0/0.0 = NaN` and
the weight assertion in `counts_add_weighted` fails. -/
def merge_frequencies_into (main other : BlockFrequencies) : Option BlockFrequencies :=
  if (other.frequencies.any fun p => (lookupKV p.1 main.frequencies).isSome)
      && (main.area + other.area == 0) then
    none
  else
    some { frequencies :=
             mergeFreqMaps main.frequencies other.frequencies
               ((main.area : ℚ) / ((main.area + other.area : ℕ) : ℚ))
           blocks_counted := main.blocks_counted + other.blocks_counted
           chunks_counted := main.chunks_counted + other.chunks_counted
           protochunks_seen := main.protochunks_seen + other.protochunks_seen
           area := main.area + other.area
           dimension := main.dimension }

/-- Lookup of the frequency of a `(block name, level)` pair. -/
def freqAt (bf : BlockFrequencies) (name : String) (y : ℤ) : Option ℚ :=
  (lookupKV name bf.frequencies).bind (lookupKV y)

/-! ## Merge lemmas -/

theorem counts_add_weighted_lookup (a b : LevelFreqs) (w : ℚ) (y : ℤ) :
    lookupKV y (counts_add_weighted a b w) =
      if (lookupKV y a).isSome ∨ (lookupKV y b).isSome then
        some ((lookupKV y a).getD 0 * w + (lookupKV y b).getD 0 * (1 - w))
      else none := by
  unfold counts_add_weighted
  rw [lookupKV_graph]
  congr 1
  simp only [List.mem_dedup, List.mem_append, eq_iff_iff]
  rw [← lookupKV_isSome_iff, ← lookupKV_isSome_iff]

/-- `getD 0` through `counts_add_weighted` is unconditionally the
weighted sum of the two `getD 0` reads. -/
theorem counts_add_weighted_getD (a b : LevelFreqs) (w : ℚ) (y : ℤ) :
    (lookupKV y (counts_add_weighted a b w)).getD 0 =
      (lookupKV y a).getD 0 * w + (lookupKV y b).getD 0 * (1 - w) := by
  rw [counts_add_weighted_lookup]
  cases ha : lookupKV y a <;> cases hb : lookupKV y b <;> simp [ha, hb]

/-- Which levels appear in `counts_add_weighted`: exactly the union. -/
theorem counts_add_weighted_isSome (a b : LevelFreqs) (w : ℚ) (y : ℤ) :
    (lookupKV y (counts_add_weighted a b w)).isSome =
      ((lookupKV y a).isSome || (lookupKV y b).isSome) := by
  rw [counts_add_weighted_lookup]
  cases ha : lookupKV y a <;> cases hb : lookupKV y b <;> simp [ha, hb]

theorem mergeFreqMaps_lookup (mainF otherF : FreqMap) (alpha : ℚ) (name : String) :
    lookupKV name (mergeFreqMaps mainF otherF alpha) =
      match lookupKV name mainF, lookupKV name otherF with
      | some m, some o => some (counts_add_weighted m o alpha)
      | some m, none => some m
      | none, some o => some o
      | none, none => none := by
  unfold mergeFreqMaps
  rw [lookupKV_append, lookupKV_map_values name (mergeMapEntry otherF alpha) mainF,
    lookupKV_filter_key name (fun k => !(lookupKV k mainF).isSome) otherF]
  cases hm : lookupKV name mainF with
  | some m =>
      simp only [hm, Option.map_some', Option.isSome_some, Bool.not_true, if_false]
      unfold mergeMapEntry
      cases ho : lookupKV name otherF <;> simp
  | none =>
      simp only [hm, Option.map_none', Option.isSome_none, Bool.not_false, if_true]
      cases ho : lookupKV name otherF <;> simp

/-- The `any`-based common-name test used by the merge guard is
symmetric in substance: it detects exactly a key looked up successfully
on both sides. -/
theorem anyCommon_iff (F G : FreqMap) :
    (F.any fun p => (lookupKV p.1 G).isSome) = true ↔
      ∃ n, (lookupKV n F).isSome = true ∧ (lookupKV n G).isSome = true := by
  rw [List.any_eq_true]
  constructor
  · rintro ⟨p, hp, hG⟩
    refine ⟨p.1, ?_, hG⟩
    rw [lookupKV_isSome_iff]
    exact List.mem_map_of_mem Prod.fst hp
  · rintro ⟨n, hF, hG⟩
    rw [lookupKV_isSome_iff] at hF
    obtain ⟨p, hp, hfst⟩ := List.mem_map.mp hF
    exact ⟨p, hp, by rw [hfst]; exact hG⟩

/-- The weighted-average merge contract of claim C1, for a pair of
operands with positive total area. -/
def MergeSpecStatement (main other : BlockFrequencies) : Prop :=
  ∃ r, merge_frequencies_into main other = some r ∧
    r.area = main.area + other.area ∧
    r.blocks_counted = main.blocks_counted + other.blocks_counted ∧
    r.chunks_counted = main.chunks_counted + other.chunks_counted ∧
    r.protochunks_seen = main.protochunks_seen + other.protochunks_seen ∧
    (∀ name m o, lookupKV name main.frequencies = some m →
      lookupKV name other.frequencies = some o →
      ∀ y : ℤ, freqAt r name y =
        if (lookupKV y m).isSome ∨ (lookupKV y o).isSome then
          some ((lookupKV y m).getD 0 *
              ((main.area : ℚ) / ((main.area : ℚ) + (other.area : ℚ))) +
            (lookupKV y o).getD 0 *
              (1 - (main.area : ℚ) / ((main.area : ℚ) + (other.area : ℚ))))
        else none) ∧
    (∀ name m, lookupKV name main.frequencies = some m →
      lookupKV name other.frequencies = none →
      lookupKV name r.frequencies = some m) ∧
    (∀ name o, lookupKV name main.frequencies = none →
      lookupKV name other.frequencies = some o →
      lookupKV name r.frequencies = some o)

/-- The successful-merge equation shared by several claim proofs. -/
theorem merge_eq_some (main other : BlockFrequencies)
    (h : 0 < main.area + other.area) :
    merge_frequencies_into main other =
      some { frequencies :=
               mergeFreqMaps main.frequencies other.frequencies
                 ((main.area : ℚ) / ((main.area + other.area : ℕ) : ℚ))
             blocks_counted := main.blocks_counted + other.blocks_counted
             chunks_counted := main.chunks_counted + other.chunks_counted
             protochunks_seen := main.protochunks_seen + other.protochunks_seen
             area := main.area + other.area
             dimension := main.dimension } := by
  unfold merge_frequencies_into
  have hz : main.area + other.area ≠ 0 := Nat.pos_iff_ne_zero.mp h
  simp [hz]

/-- C1: for operands with positive total area, `merge_frequencies_into`
succeeds; block names present in both maps are combined level-wise as
`main*α + other*(1-α)` with `α = A/(A+B)` over the union of the level
keys (missing levels read as `0`, levels absent from both absent from
the result); names present on only one side keep their level map
unchanged; the area becomes `A+B` and the three counters are summed. -/
theorem c1_merge_weighted_average (main other : BlockFrequencies)
    (h : 0 < main.area + other.area) :
    MergeSpecStatement main other := by
  refine ⟨_, merge_eq_some main other h, rfl, rfl, rfl, rfl, ?_, ?_, ?_⟩
  · intro name m o hm ho y
    unfold freqAt
    simp only [mergeFreqMaps_lookup, hm, ho, Option.some_bind]
    rw [counts_add_weighted_lookup]
    rw [Nat.cast_add]
  · intro name m hm ho
    simp only [mergeFreqMaps_lookup, hm, ho]
  · intro name o hm ho
    simp only [mergeFreqMaps_lookup, hm, ho]

/-- A sample pair of frequency tables exercising all three key cases
(name in both, name only in `main`, name only in `other`). -/
def sampleMain : BlockFrequencies where
  frequencies := [("minecraft:stone", [(0, 1/2), (1, 1/4)]), ("minecraft:dirt", [(3, 1)])]
  blocks_counted := 10
  chunks_counted := 2
  protochunks_seen := 1
  area := 1
  dimension := "minecraft:overworld"

def sampleOther : BlockFrequencies where
  frequencies := [("minecraft:stone", [(0, 1/4), (2, 1/8)]), ("minecraft:gravel", [(5, 1)])]
  blocks_counted := 20
  chunks_counted := 6
  protochunks_seen := 3
  area := 3
  dimension := "minecraft:overworld"

/-- Witness for C1 at a concrete pair of operands. -/
theorem c1_merge_weighted_average_witness :
    0 < sampleMain.area + sampleOther.area ∧ MergeSpecStatement sampleMain sampleOther :=
  ⟨by decide, c1_merge_weighted_average sampleMain sampleOther (by decide)⟩

/-- The identity-and-commutativity contract of claim C3: merging with
the empty table (in either operand position) changes none of the
frequencies, the area, or the counters, and the merge of two tables of
equal area is commutative in the numeric result (or panics in both
orders). -/
def MergeIdentityCommStatement (F F1 F2 : BlockFrequencies) (d : String) : Prop :=
  (∃ r, merge_frequencies_into F (BlockFrequencies.empty d) = some r ∧
    r.frequencies = F.frequencies ∧ r.area = F.area ∧
    r.blocks_counted = F.blocks_counted ∧ r.chunks_counted = F.chunks_counted ∧
    r.protochunks_seen = F.protochunks_seen) ∧
  (∃ r, merge_frequencies_into (BlockFrequencies.empty d) F = some r ∧
    r.frequencies = F.frequencies ∧ r.area = F.area ∧
    r.blocks_counted = F.blocks_counted ∧ r.chunks_counted = F.chunks_counted ∧
    r.protochunks_seen = F.protochunks_seen) ∧
  ((merge_frequencies_into F1 F2 = none ∧ merge_frequencies_into F2 F1 = none) ∨
    (∃ r1 r2, merge_frequencies_into F1 F2 = some r1 ∧
      merge_frequencies_into F2 F1 = some r2 ∧
      ∀ name y, freqAt r1 name y = freqAt r2 name y))

/-- Merging the empty table into `F` returns `F` itself. -/
theorem merge_empty_right (F : BlockFrequencies) (d : String) :
    merge_frequencies_into F (BlockFrequencies.empty d) = some F := by
  cases F with
  | mk f b c p a dim =>
      unfold merge_frequencies_into
      simp [BlockFrequencies.empty, mergeFreqMaps, mergeMapEntry, lookupKV]

/-- Merging `F` into the empty table returns `F` with the accumulator's
dimension. -/
theorem merge_empty_left (F : BlockFrequencies) (d : String) :
    merge_frequencies_into (BlockFrequencies.empty d) F =
      some { F with dimension := d } := by
  cases F with
  | mk f b c p a dim =>
      unfold merge_frequencies_into
      simp [BlockFrequencies.empty, mergeFreqMaps, mergeMapEntry, lookupKV,
        List.filter_true]

/-- `A / (A + A) = 1 / 2` for a nonzero natural area. -/
theorem half_weight {A : ℕ} (hA : A ≠ 0) :
    ((A : ℚ) / ((A + A : ℕ) : ℚ)) = 1 / 2 := by
  have hA' : (A : ℚ) ≠ 0 := Nat.cast_ne_zero.mpr hA
  have h2 : ((A : ℚ) + (A : ℚ)) ≠ 0 := fun hh => hA' (by linarith)
  push_cast
  rw [div_eq_iff h2]
  ring

/-- A merge with no block name common to the two operands never reaches
the weighted branch and always succeeds. -/
theorem merge_eq_some_of_no_common (main other : BlockFrequencies)
    (hg : (other.frequencies.any fun p => (lookupKV p.1 main.frequencies).isSome) = false) :
    merge_frequencies_into main other =
      some { frequencies :=
               mergeFreqMaps main.frequencies other.frequencies
                 ((main.area : ℚ) / ((main.area + other.area : ℕ) : ℚ))
             blocks_counted := main.blocks_counted + other.blocks_counted
             chunks_counted := main.chunks_counted + other.chunks_counted
             protochunks_seen := main.protochunks_seen + other.protochunks_seen
             area := main.area + other.area
             dimension := main.dimension } := by
  unfold merge_frequencies_into
  rw [hg]
  simp

/-- C3: the empty `BlockFrequencies` is a two-sided identity for
`merge_frequencies_into`, and the merge of two tables of equal area
produces the same numeric value for every block name and level in
either order. -/
theorem c3_merge_identity_and_comm (F F1 F2 : BlockFrequencies) (d : String)
    (h : F1.area = F2.area) :
    MergeIdentityCommStatement F F1 F2 d := by
  refine ⟨?_, ?_, ?_⟩
  · -- identity as the `other` operand
    exact ⟨F, merge_empty_right F d, rfl, rfl, rfl, rfl, rfl⟩
  · -- identity as the `main` operand
    exact ⟨{ F with dimension := d }, merge_empty_left F d, rfl, rfl, rfl, rfl, rfl⟩
  · -- commutativity at equal areas
    by_cases hz : F1.area + F2.area = 0
    · by_cases hc : ∃ n, (lookupKV n F1.frequencies).isSome = true ∧
          (lookupKV n F2.frequencies).isSome = true
      · left
        constructor
        · unfold merge_frequencies_into
          rw [if_pos]
          rw [Bool.and_eq_true]
          refine ⟨(anyCommon_iff F2.frequencies F1.frequencies).mpr ?_, by simp [hz]⟩
          obtain ⟨n, h1, h2⟩ := hc
          exact ⟨n, h2, h1⟩
        · unfold merge_frequencies_into
          rw [if_pos]
          rw [Bool.and_eq_true]
          refine ⟨(anyCommon_iff F1.frequencies F2.frequencies).mpr ?_,
            by simp [Nat.add_comm F2.area F1.area, hz]⟩
          obtain ⟨n, h1, h2⟩ := hc
          exact ⟨n, h1, h2⟩
      · right
        have hg1 : (F2.frequencies.any fun p => (lookupKV p.1 F1.frequencies).isSome) = false := by
          rw [Bool.eq_false_iff]
          intro hany
          obtain ⟨n, h2, h1⟩ := (anyCommon_iff F2.frequencies F1.frequencies).mp hany
          exact hc ⟨n, h1, h2⟩
        have hg2 : (F1.frequencies.any fun p => (lookupKV p.1 F2.frequencies).isSome) = false := by
          rw [Bool.eq_false_iff]
          intro hany
          obtain ⟨n, h1, h2⟩ := (anyCommon_iff F1.frequencies F2.frequencies).mp hany
          exact hc ⟨n, h1, h2⟩
        refine ⟨_, _, merge_eq_some_of_no_common F1 F2 hg1,
          merge_eq_some_of_no_common F2 F1 hg2, ?_⟩
        intro name y
        unfold freqAt
        simp only [mergeFreqMaps_lookup]
        cases hm1 : lookupKV name F1.frequencies with
        | some m1 =>
            cases hm2 : lookupKV name F2.frequencies with
            | some m2 => exact absurd ⟨name, by simp [hm1], by simp [hm2]⟩ hc
            | none => rfl
        | none =>
            cases hm2 : lookupKV name F2.frequencies <;> rfl
    · -- positive total area: both merges succeed and α = 1/2
      right
      have hpos : 0 < F1.area + F2.area := Nat.pos_of_ne_zero hz
      have hpos' : 0 < F2.area + F1.area := by rwa [Nat.add_comm]
      refine ⟨_, _, merge_eq_some F1 F2 hpos, merge_eq_some F2 F1 hpos', ?_⟩
      have hA : F1.area ≠ 0 := by
        intro h0
        rw [h0, ← h, h0] at hz
        exact hz rfl
      have halpha : ((F1.area : ℚ) / ((F1.area + F2.area : ℕ) : ℚ)) = 1 / 2 := by
        rw [← h]
        exact half_weight hA
      have hbeta : ((F2.area : ℚ) / ((F2.area + F1.area : ℕ) : ℚ)) = 1 / 2 := by
        rw [← h]
        exact half_weight hA
      intro name y
      unfold freqAt
      simp only [mergeFreqMaps_lookup, halpha, hbeta]
      cases hm1 : lookupKV name F1.frequencies with
      | some m1 =>
          cases hm2 : lookupKV name F2.frequencies with
          | some m2 =>
              simp only [Option.some_bind]
              rw [counts_add_weighted_lookup, counts_add_weighted_lookup]
              by_cases hy : (lookupKV y m1).isSome = true ∨ (lookupKV y m2).isSome = true
              · rw [if_pos hy, if_pos (Or.symm hy)]
                congr 1
                ring
              · rw [if_neg hy, if_neg fun hy' => hy (Or.symm hy')]
          | none => rfl
      | none =>
          cases hm2 : lookupKV name F2.frequencies <;> rfl

/-- Witness for C3 at concrete tables of equal area. -/
theorem c3_merge_identity_and_comm_witness :
    sampleMain.area = sampleMain.area ∧
      MergeIdentityCommStatement sampleOther sampleMain sampleMain "minecraft:overworld" :=
  ⟨rfl, c3_merge_identity_and_comm sampleOther sampleMain sampleMain "minecraft:overworld" rfl⟩

/-! ## C2: reduction associativity -/

def cexA : BlockFrequencies where
  frequencies := [("minecraft:diamond_ore", [(0, 1)])]
  blocks_counted := 0
  chunks_counted := 0
  protochunks_seen := 0
  area := 1
  dimension := "minecraft:overworld"

def cexB : BlockFrequencies where
  frequencies := []
  blocks_counted := 0
  chunks_counted := 0
  protochunks_seen := 0
  area := 1
  dimension := "minecraft:overworld"

def cexC : BlockFrequencies where
  frequencies := [("minecraft:diamond_ore", [(0, 0)])]
  blocks_counted := 0
  chunks_counted := 0
  protochunks_seen := 0
  area := 1
  dimension := "minecraft:overworld"

/-- Counterexample to C2: three tables of positive area (`1` each) for
which the two reduction trees give `2/3` and `1/3` for the same block
and level, a relative difference far beyond any `1e-9` tolerance.  The
asymmetry comes from the vacant branch of the merge, which inserts a
block name missing from the accumulator without reweighting it. -/
theorem c2_assoc_counterexample :
    0 < cexA.area ∧ 0 < cexB.area ∧ 0 < cexC.area ∧
    (((merge_frequencies_into cexA cexB).bind fun r =>
        merge_frequencies_into r cexC).bind fun r =>
          freqAt r "minecraft:diamond_ore" 0) = some (2/3) ∧
    (((merge_frequencies_into cexB cexC).bind fun r =>
        merge_frequencies_into cexA r).bind fun r =>
          freqAt r "minecraft:diamond_ore" 0) = some (1/3) ∧
    ¬(|(2 : ℚ)/3 - 1/3| ≤ 1/1000000000 * max |(2 : ℚ)/3| |(1 : ℚ)/3|) := by
  refine ⟨by decide, by decide, by decide, ?_, ?_, ?_⟩
  · norm_num [cexA, cexB, cexC, merge_frequencies_into, mergeFreqMaps, mergeMapEntry,
      counts_add_weighted, lookupKV, freqAt, List.dedup]
  · norm_num [cexA, cexB, cexC, merge_frequencies_into, mergeFreqMaps, mergeMapEntry,
      counts_add_weighted, lookupKV, freqAt, List.dedup]
  · rw [not_le, show (2 : ℚ)/3 - 1/3 = 1/3 by norm_num,
      abs_of_pos (by norm_num : (0 : ℚ) < 1/3), abs_of_pos (by norm_num : (0 : ℚ) < 2/3),
      max_eq_left (by norm_num : (1 : ℚ)/3 ≤ 2/3)]
    norm_num

/-- Equality of the block-name key sets of two frequency maps (stated
over the finitely many stored keys, so it is decidable). -/
def sameNames (F G : FreqMap) : Prop :=
  (∀ n ∈ F.map Prod.fst, (lookupKV n G).isSome = true) ∧
  (∀ n ∈ G.map Prod.fst, (lookupKV n F).isSome = true)

instance sameNamesDecidable (F G : FreqMap) : Decidable (sameNames F G) :=
  inferInstanceAs (Decidable
    ((∀ n ∈ F.map Prod.fst, (lookupKV n G).isSome = true) ∧
      (∀ n ∈ G.map Prod.fst, (lookupKV n F).isSome = true)))

theorem sameNames_isSome {F G : FreqMap} (h : sameNames F G) (n : String) :
    (lookupKV n F).isSome = (lookupKV n G).isSome := by
  obtain ⟨h1, h2⟩ := h
  cases hF : (lookupKV n F).isSome with
  | true =>
      rw [lookupKV_isSome_iff] at hF
      exact (h1 n hF).symm
  | false =>
      cases hG : (lookupKV n G).isSome with
      | true =>
          rw [lookupKV_isSome_iff] at hG
          rw [h2 n hG] at hF
          exact hF.symm
      | false => rfl

/-- The associativity conclusion of the amended claim C2: both
reduction trees succeed, with the same area and the same numeric value
at every block name and level. -/
def AssocStatement (A B C : BlockFrequencies) : Prop :=
  ∃ rL rR,
    ((merge_frequencies_into A B).bind fun r => merge_frequencies_into r C) = some rL ∧
    ((merge_frequencies_into B C).bind fun r => merge_frequencies_into A r) = some rR ∧
    rL.area = rR.area ∧
    ∀ name y, freqAt rL name y = freqAt rR name y

/-- The left reduction tree `(X·Y)·Z` written out as one record. -/
theorem merge_merge_left_eq (X Y Z : BlockFrequencies) (hXY : 0 < X.area + Y.area) :
    ((merge_frequencies_into X Y).bind fun r => merge_frequencies_into r Z) =
      some { frequencies :=
               mergeFreqMaps
                 (mergeFreqMaps X.frequencies Y.frequencies
                   ((X.area : ℚ) / ((X.area + Y.area : ℕ) : ℚ)))
                 Z.frequencies
                 (((X.area + Y.area : ℕ) : ℚ) / ((X.area + Y.area + Z.area : ℕ) : ℚ))
             blocks_counted := X.blocks_counted + Y.blocks_counted + Z.blocks_counted
             chunks_counted := X.chunks_counted + Y.chunks_counted + Z.chunks_counted
             protochunks_seen :=
               X.protochunks_seen + Y.protochunks_seen + Z.protochunks_seen
             area := X.area + Y.area + Z.area
             dimension := X.dimension } := by
  rw [merge_eq_some X Y hXY]
  simp only [Option.some_bind]
  exact merge_eq_some _ Z (Nat.add_pos_left hXY _)

/-- The right reduction tree `X·(Y·Z)` written out as one record. -/
theorem merge_merge_right_eq (X Y Z : BlockFrequencies) (hX : 0 < X.area)
    (hYZ : 0 < Y.area + Z.area) :
    ((merge_frequencies_into Y Z).bind fun r => merge_frequencies_into X r) =
      some { frequencies :=
               mergeFreqMaps X.frequencies
                 (mergeFreqMaps Y.frequencies Z.frequencies
                   ((Y.area : ℚ) / ((Y.area + Z.area : ℕ) : ℚ)))
                 ((X.area : ℚ) / ((X.area + (Y.area + Z.area) : ℕ) : ℚ))
             blocks_counted := X.blocks_counted + (Y.blocks_counted + Z.blocks_counted)
             chunks_counted := X.chunks_counted + (Y.chunks_counted + Z.chunks_counted)
             protochunks_seen :=
               X.protochunks_seen + (Y.protochunks_seen + Z.protochunks_seen)
             area := X.area + (Y.area + Z.area)
             dimension := X.dimension } := by
  rw [merge_eq_some Y Z hYZ]
  simp only [Option.some_bind]
  exact merge_eq_some X _ (Nat.add_pos_left hX _)

/-- C2 (amended): for positive areas the two reduction trees agree
whenever every block name occurring in one operand occurs in all of
them; the counterexample above shows the unrestricted claim fails. -/
theorem c2_amended_assoc (A B C : BlockFrequencies)
    (hA : 0 < A.area) (hB : 0 < B.area) (hC : 0 < C.area)
    (h1 : sameNames A.frequencies B.frequencies)
    (h2 : sameNames B.frequencies C.frequencies) :
    AssocStatement A B C := by
  have hAB : 0 < A.area + B.area := Nat.add_pos_left hA _
  have hBC : 0 < B.area + C.area := Nat.add_pos_left hB _
  refine ⟨_, _, merge_merge_left_eq A B C hAB, merge_merge_right_eq A B C hA hBC,
    Nat.add_assoc _ _ _, ?_⟩
  intro name y
  unfold freqAt
  dsimp only
  have hq0A : (0 : ℚ) < A.area := by exact_mod_cast hA
  have hq0B : (0 : ℚ) < B.area := by exact_mod_cast hB
  have hq0C : (0 : ℚ) < C.area := by exact_mod_cast hC
  cases ha : lookupKV name A.frequencies with
  | none =>
      have hb : lookupKV name B.frequencies = none := by
        have := sameNames_isSome h1 name
        rw [ha] at this
        exact Option.not_isSome_iff_eq_none.mp (by simp [← this])
      have hc : lookupKV name C.frequencies = none := by
        have := sameNames_isSome h2 name
        rw [hb] at this
        exact Option.not_isSome_iff_eq_none.mp (by simp [← this])
      simp only [mergeFreqMaps_lookup, ha, hb, hc]
  | some a =>
      have hb : ∃ b, lookupKV name B.frequencies = some b := by
        have := sameNames_isSome h1 name
        rw [ha] at this
        exact Option.isSome_iff_exists.mp (by simp [← this])
      obtain ⟨b, hb⟩ := hb
      have hc : ∃ c, lookupKV name C.frequencies = some c := by
        have := sameNames_isSome h2 name
        rw [hb] at this
        exact Option.isSome_iff_exists.mp (by simp [← this])
      obtain ⟨c, hc⟩ := hc
      simp only [mergeFreqMaps_lookup, ha, hb, hc, Option.some_bind]
      rw [counts_add_weighted_lookup
          (counts_add_weighted a b ((A.area : ℚ) / ((A.area + B.area : ℕ) : ℚ))) c
          (((A.area + B.area : ℕ) : ℚ) / ((A.area + B.area + C.area : ℕ) : ℚ)) y,
        counts_add_weighted_lookup a
          (counts_add_weighted b c ((B.area : ℚ) / ((B.area + C.area : ℕ) : ℚ)))
          ((A.area : ℚ) / ((A.area + (B.area + C.area) : ℕ) : ℚ)) y]
      simp only [counts_add_weighted_isSome, counts_add_weighted_getD,
        Bool.or_eq_true, or_assoc]
      split_ifs with hcond
      · congr 1
        push_cast
        have d1 : (A.area : ℚ) + B.area ≠ 0 := by positivity
        have d2 : (A.area : ℚ) + B.area + C.area ≠ 0 := by positivity
        have d3 : (B.area : ℚ) + C.area ≠ 0 := by positivity
        have d4 : (A.area : ℚ) + (B.area + C.area) ≠ 0 := by positivity
        field_simp
        ring
      · rfl

def assocSampleA : BlockFrequencies where
  frequencies := [("minecraft:stone", [(0, 1/2)])]
  blocks_counted := 1
  chunks_counted := 1
  protochunks_seen := 0
  area := 1
  dimension := "minecraft:overworld"

def assocSampleB : BlockFrequencies where
  frequencies := [("minecraft:stone", [(0, 1/4), (1, 1/4)])]
  blocks_counted := 2
  chunks_counted := 2
  protochunks_seen := 0
  area := 2
  dimension := "minecraft:overworld"

def assocSampleC : BlockFrequencies where
  frequencies := [("minecraft:stone", [(1, 1)])]
  blocks_counted := 3
  chunks_counted := 3
  protochunks_seen := 0
  area := 3
  dimension := "minecraft:overworld"

/-- Witness for the amended C2 at a concrete triple with equal name
sets and positive areas. -/
theorem c2_amended_assoc_witness :
    0 < assocSampleA.area ∧ 0 < assocSampleB.area ∧ 0 < assocSampleC.area ∧
      sameNames assocSampleA.frequencies assocSampleB.frequencies ∧
      sameNames assocSampleB.frequencies assocSampleC.frequencies ∧
      AssocStatement assocSampleA assocSampleB assocSampleC :=
  ⟨by decide, by decide, by decide, by decide, by decide,
    c2_amended_assoc assocSampleA assocSampleB assocSampleC
      (by decide) (by decide) (by decide) (by decide) (by decide)⟩

/-! ## C4: Zone construction -/

/-- Counterexample to C4: `Zone::new 0 1 5 3` (and `Zone::from` on the
same four values) succeeds although `to_z = 3 ≤ from_z = 5`; the Rust
constructor checks only the x axis. -/
theorem c4_zone_counterexample :
    Zone.new 0 1 5 3 = some { from_x := 0, to_x := 1, from_z := 5, to_z := 3 } ∧
    Zone.fromVec [0, 1, 5, 3] =
      some { from_x := 0, to_x := 1, from_z := 5, to_z := 3 } ∧
    ¬((5 : ℤ) < 3) := by
  refine ⟨by decide, by decide, by decide⟩

/-- C4 (amended): `Zone::new` (and `Zone::from` on a length-≥4 vector)
fails exactly when `to_x ≤ from_x`; a successfully constructed zone
records the four inputs and satisfies `from_x < to_x`, but no
constraint on the z axis is enforced.  `Zone::from` also fails on
vectors shorter than four elements. -/
theorem c4_amended_zone_new (fx tx fz tz : ℤ) :
    (Zone.new fx tx fz tz = none ↔ tx ≤ fx) ∧
    (∀ z, Zone.new fx tx fz tz = some z →
      z.from_x = fx ∧ z.to_x = tx ∧ z.from_z = fz ∧ z.to_z = tz ∧ fx < tx) ∧
    Zone.fromVec [fx, tx, fz, tz] = Zone.new fx tx fz tz ∧
    (∀ vec : List ℤ, vec.length < 4 → Zone.fromVec vec = none) := by
  refine ⟨?_, ?_, rfl, ?_⟩
  · by_cases h : tx ≤ fx <;> simp [Zone.new, h]
  · intro z hz
    by_cases h : tx ≤ fx
    · simp [Zone.new, h] at hz
    · simp [Zone.new, h] at hz
      rw [← hz]
      exact ⟨rfl, rfl, rfl, rfl, lt_of_not_le h⟩
  · intro vec hlen
    rcases vec with _ | ⟨a, _ | ⟨b, _ | ⟨c, _ | ⟨d, rest⟩⟩⟩⟩
    · rfl
    · rfl
    · rfl
    · rfl
    · simp [List.length_cons] at hlen
      omega

/-- Witness for the amended C4. -/
theorem c4_amended_zone_new_witness :
    Zone.fromVec [0, 2, 0, 1] = Zone.new 0 2 0 1 ∧
      (Zone.new 0 2 0 1 = none ↔ (2 : ℤ) ≤ 0) :=
  ⟨(c4_amended_zone_new 0 2 0 1).2.2.1, (c4_amended_zone_new 0 2 0 1).1⟩

/-! ## C7: RarityFilter (`remove_too_rare`) -/

/-- `remove_too_rare` from `lib.rs`: panics (`none`) when the cutoff is
not positive; otherwise each dimension keeps exactly the block entries
whose level-frequency sum divided by the constant `255` is at least the
cutoff.  The `RegionVersion` component is never consulted. -/
def remove_too_rare (results_by_dim : List (BlockFrequencies × RegionVersion)) (cutoff : ℚ) :
    Option (List (BlockFrequencies × RegionVersion)) :=
  if cutoff ≤ 0 then none
  else
    some (results_by_dim.map fun pr =>
      ({ pr.1 with
          frequencies := pr.1.frequencies.filter fun p =>
            decide (cutoff ≤ (p.2.map Prod.snd).sum / 255) }, pr.2))

/-- C7: `remove_too_rare` fails exactly on a non-positive cutoff; for a
positive cutoff each dimension entry keeps its version, area and
dimension, and retains exactly the block entries whose summed frequency
divided by the constant `255` is at least the cutoff (an entry exactly at
the cutoff is kept); the world version never influences the retained
frequencies. -/
theorem c7_remove_too_rare_spec (results : List (BlockFrequencies × RegionVersion))
    (cutoff : ℚ) :
    (remove_too_rare results cutoff = none ↔ cutoff ≤ 0) ∧
    (0 < cutoff → ∃ l, remove_too_rare results cutoff = some l ∧
      List.Forall₂ (fun pr' pr =>
        pr'.2 = pr.2 ∧ pr'.1.area = pr.1.area ∧ pr'.1.dimension = pr.1.dimension ∧
        pr'.1.blocks_counted = pr.1.blocks_counted ∧
        pr'.1.chunks_counted = pr.1.chunks_counted ∧
        ∀ name m, (name, m) ∈ pr'.1.frequencies ↔
          ((name, m) ∈ pr.1.frequencies ∧ cutoff ≤ (m.map Prod.snd).sum / 255))
        l results) ∧
    (∀ bf v v' c, (remove_too_rare [(bf, v)] c).map (List.map fun pr => pr.1) =
      (remove_too_rare [(bf, v')] c).map (List.map fun pr => pr.1)) := by
  refine ⟨?_, ?_, ?_⟩
  · by_cases hc : cutoff ≤ 0 <;> simp [remove_too_rare, hc]
  · intro h
    have hc : ¬cutoff ≤ 0 := not_le.mpr h
    refine ⟨results.map fun pr =>
        ({ pr.1 with
            frequencies := pr.1.frequencies.filter fun p =>
              decide (cutoff ≤ (p.2.map Prod.snd).sum / 255) }, pr.2),
      by simp [remove_too_rare, hc], ?_⟩
    rw [List.forall₂_map_left_iff]
    rw [List.forall₂_same]
    intro pr hpr
    refine ⟨rfl, rfl, rfl, rfl, rfl, ?_⟩
    intro name m
    rw [List.mem_filter]
    simp
  · intro bf v v' c
    by_cases hc : c ≤ 0 <;> simp [remove_too_rare, hc]

def rareSample : BlockFrequencies where
  frequencies :=
    [("minecraft:diamond_ore", [(-5, 1/2), (0, 1/2)]), ("minecraft:emerald_ore", [(0, 1/2)])]
  blocks_counted := 100
  chunks_counted := 4
  protochunks_seen := 0
  area := 1024
  dimension := "minecraft:overworld"

/-- Witness for C7 at a boundary cutoff (`1/255` equals the normalized
frequency of the first sample entry, which is therefore retained). -/
theorem c7_remove_too_rare_spec_witness :
    (remove_too_rare [(rareSample, RegionVersion.AtLeast118)] (1/255) = none ↔
      (1 : ℚ)/255 ≤ 0) ∧
    (0 < (1 : ℚ)/255 → ∃ l,
      remove_too_rare [(rareSample, RegionVersion.AtLeast118)] (1/255) = some l ∧
      List.Forall₂ (fun pr' pr =>
        pr'.2 = pr.2 ∧ pr'.1.area = pr.1.area ∧ pr'.1.dimension = pr.1.dimension ∧
        pr'.1.blocks_counted = pr.1.blocks_counted ∧
        pr'.1.chunks_counted = pr.1.chunks_counted ∧
        ∀ name m, (name, m) ∈ pr'.1.frequencies ↔
          ((name, m) ∈ pr.1.frequencies ∧ (1 : ℚ)/255 ≤ (m.map Prod.snd).sum / 255))
        l [(rareSample, RegionVersion.AtLeast118)]) ∧
    (∀ bf v v' c, (remove_too_rare [(bf, v)] c).map (List.map fun pr => pr.1) =
      (remove_too_rare [(bf, v')] c).map (List.map fun pr => pr.1)) :=
  c7_remove_too_rare_spec [(rareSample, RegionVersion.AtLeast118)] (1/255)

/-! ## Exporter (`freqs_to_distrib`, `generate_JER_json`)

The Rust `freqs_to_distrib` produces a string of `"level,value;"` tokens
via `format!`; the model keeps each token as a `(level, value)` pair and
abstracts the decimal rendering of the `f64` value.  The function's
side-channel (the one-time-per-dimension height-limit warning) is pure
logging and is not modelled.  `generate_JER_json` serialises through
`serde_json`; the model stops at the list of records handed to it. -/

/-- The version-dependent level offset of `freqs_to_distrib`. -/
def distribOffset : RegionVersion → ℤ
  | RegionVersion.Pre118 => 0
  | RegionVersion.AtLeast118 => 64

/-- The inclusive integer range `[lo, hi]` (empty when `hi < lo`),
modelling the Rust `lo..=hi` loop. -/
def intsFromTo (lo hi : ℤ) : List ℤ :=
  (List.range (hi - lo + 1).toNat).map fun i : ℕ => lo + (i : ℤ)

theorem intsFromTo_length (lo hi : ℤ) :
    (intsFromTo lo hi).length = (hi - lo + 1).toNat := by
  rw [intsFromTo, List.length_map, List.length_range]

theorem intsFromTo_get (lo hi : ℤ) (i : ℕ) (hi' : i < (intsFromTo lo hi).length) :
    (intsFromTo lo hi).get ⟨i, hi'⟩ = lo + i := by
  unfold intsFromTo
  rw [List.get_eq_getElem, List.getElem_map, List.getElem_range]

/-- The maximum key of a level map (`freqs.keys().max().unwrap()`);
junk value `0` for the empty map, which the caller excludes. -/
def maxKey (m : LevelFreqs) : ℤ :=
  match m with
  | [] => 0
  | p :: tl => (tl.map Prod.fst).foldl max p.1

theorem foldl_max_init_le (l : List ℤ) (a : ℤ) : a ≤ l.foldl max a := by
  induction l generalizing a with
  | nil => exact le_refl a
  | cons b t ih => exact le_trans (le_max_left a b) (ih (max a b))

theorem foldl_max_mem (l : List ℤ) (a : ℤ) : l.foldl max a = a ∨ l.foldl max a ∈ l := by
  induction l generalizing a with
  | nil => exact Or.inl rfl
  | cons b t ih =>
      cases ih (max a b) with
      | inl h =>
          cases max_choice a b with
          | inl hm => exact Or.inl (by rw [List.foldl_cons, h, hm])
          | inr hm => exact Or.inr (by rw [List.foldl_cons, h, hm]; exact List.mem_cons_self b t)
      | inr h => exact Or.inr (List.mem_cons_of_mem b h)

theorem le_foldl_max (l : List ℤ) (a x : ℤ) (hx : x ∈ l) : x ≤ l.foldl max a := by
  induction l generalizing a with
  | nil => exact absurd hx (List.not_mem_nil x)
  | cons b t ih =>
      rw [List.foldl_cons]
      cases List.mem_cons.mp hx with
      | inl h => rw [h]; exact le_trans (le_max_right a b) (foldl_max_init_le t (max a b))
      | inr h => exact ih (max a b) h

/-- For a nonempty map the maximum key is one of the keys. -/
theorem maxKey_mem (m : LevelFreqs) (h : m ≠ []) : maxKey m ∈ m.map Prod.fst := by
  cases m with
  | nil => exact absurd rfl h
  | cons p tl =>
      simp only [maxKey]
      cases foldl_max_mem (tl.map Prod.fst) p.1 with
      | inl he => rw [he]; exact List.mem_cons_self _ _
      | inr he => exact List.mem_cons_of_mem _ he

/-- Every key is bounded by the maximum key. -/
theorem le_maxKey (m : LevelFreqs) (q : ℤ × ℚ) (hq : q ∈ m) : q.1 ≤ maxKey m := by
  cases m with
  | nil => exact absurd hq (List.not_mem_nil q)
  | cons p tl =>
      simp only [maxKey]
      cases List.mem_cons.mp hq with
      | inl h => rw [h]; exact foldl_max_init_le _ _
      | inr h => exact le_foldl_max _ _ _ (List.mem_map_of_mem Prod.fst h)

/-- `freqs_to_distrib` from `lib.rs`: `none` models the
`assert!(!freqs.is_empty())` panic; otherwise one `(level+offset, value)`
token per level from `depth_limit = -offset` up to
`min(max_observed_level, 255)` inclusive, with missing levels read as
`0.0`. -/
def freqs_to_distrib (freqs : LevelFreqs) (version : RegionVersion) :
    Option (List (ℕ × ℚ)) :=
  if freqs.isEmpty then none
  else
    let offset := distribOffset version
    let depth_limit := -offset
    let max_jer_height : ℤ := 255
    some ((intsFromTo depth_limit (min (maxKey freqs) max_jer_height)).map fun y =>
      ((y + offset).toNat, (lookupKV y freqs).getD 0))

/-- `struct BlockJERDistributionData` from `lib.rs`. -/
structure BlockJERDistributionData where
  block : String
  distrib : List (ℕ × ℚ)
  silktouch : Bool
  dim : String
deriving DecidableEq, Repr

/-- `generate_JER_json` from `lib.rs`, up to the final `serde_json`
serialisation: blocks with an empty level map, and blocks whose
distribution comes out empty, are omitted. -/
def generate_JER_json (frequency_data : List (BlockFrequencies × RegionVersion)) :
    List BlockJERDistributionData :=
  frequency_data.flatMap fun fd =>
    fd.1.frequencies.filterMap fun p =>
      if p.2.isEmpty then none
      else
        match freqs_to_distrib p.2 fd.2 with
        | none => none
        | some distrib =>
            if distrib.isEmpty then none
            else some { block := p.1, distrib := distrib,
                        silktouch := false, dim := fd.1.dimension }

theorem freqs_to_distrib_eq (freqs : LevelFreqs) (version : RegionVersion)
    (h : freqs ≠ []) :
    freqs_to_distrib freqs version =
      some ((intsFromTo (-(distribOffset version)) (min (maxKey freqs) 255)).map fun y =>
        ((y + distribOffset version).toNat, (lookupKV y freqs).getD 0)) := by
  have hE : freqs.isEmpty = false := by
    cases freqs with
    | nil => exact absurd rfl h
    | cons p tl => rfl
  simp [freqs_to_distrib, hE]

theorem freqs_to_distrib_length (freqs : LevelFreqs) (version : RegionVersion)
    (h : freqs ≠ []) (tokens : List (ℕ × ℚ))
    (ht : freqs_to_distrib freqs version = some tokens) :
    tokens.length = (min (maxKey freqs) 255 + distribOffset version + 1).toNat := by
  rw [freqs_to_distrib_eq freqs version h] at ht
  have := Option.some_inj.mp ht
  rw [← this, List.length_map, intsFromTo_length]
  congr 1
  ring

theorem freqs_to_distrib_get (freqs : LevelFreqs) (version : RegionVersion)
    (h : freqs ≠ []) (tokens : List (ℕ × ℚ))
    (ht : freqs_to_distrib freqs version = some tokens)
    (i : ℕ) (hi : i < tokens.length) :
    tokens.get ⟨i, hi⟩ =
      ((-(distribOffset version) + i + distribOffset version).toNat,
        (lookupKV (-(distribOffset version) + i) freqs).getD 0) := by
  rw [freqs_to_distrib_eq freqs version h] at ht
  have he := (Option.some_inj.mp ht).symm
  subst he
  have hi2 : i < (intsFromTo (-(distribOffset version)) (min (maxKey freqs) 255)).length := by
    simpa using hi
  rw [List.get_eq_getElem, List.getElem_map]
  have hg := intsFromTo_get (-(distribOffset version)) (min (maxKey freqs) 255) i hi2
  rw [List.get_eq_getElem] at hg
  rw [hg]

/-- Membership in the JER export of a single dimension, characterised:
exactly the blocks with a nonempty level map and a nonempty
distribution appear. -/
theorem generate_JER_json_mem (bf : BlockFrequencies) (v : RegionVersion)
    (rec : BlockJERDistributionData) :
    rec ∈ generate_JER_json [(bf, v)] ↔
      ∃ lm, (rec.block, lm) ∈ bf.frequencies ∧ lm ≠ [] ∧
        freqs_to_distrib lm v = some rec.distrib ∧ rec.distrib ≠ [] ∧
        rec.silktouch = false ∧ rec.dim = bf.dimension := by
  have hfl : generate_JER_json [(bf, v)] =
      bf.frequencies.filterMap (fun p =>
        if p.2.isEmpty then none
        else
          match freqs_to_distrib p.2 v with
          | none => none
          | some distrib =>
              if distrib.isEmpty then none
              else some { block := p.1, distrib := distrib,
                          silktouch := false, dim := bf.dimension }) := by
    simp [generate_JER_json]
  rw [hfl, List.mem_filterMap]
  constructor
  · rintro ⟨p, hp, hf⟩
    by_cases hE : p.2.isEmpty
    · rw [if_pos hE] at hf
      exact absurd hf (by simp)
    · rw [if_neg hE] at hf
      cases hd : freqs_to_distrib p.2 v with
      | none => rw [hd] at hf; simp at hf
      | some d =>
          simp only [hd] at hf
          by_cases hdE : d.isEmpty
          · rw [if_pos hdE] at hf
            exact absurd hf (by simp)
          · rw [if_neg hdE] at hf
            have hrec := Option.some_inj.mp hf
            refine ⟨p.2, ?_, ?_, ?_, ?_, ?_, ?_⟩
            · rw [← hrec]; simpa using hp
            · intro hnil; rw [hnil] at hE; exact hE rfl
            · rw [← hrec]; exact hd
            · rw [← hrec]
              intro hnil
              have hd2 : d = [] := hnil
              rw [hd2] at hdE
              exact hdE rfl
            · rw [← hrec]
            · rw [← hrec]
  · rintro ⟨lm, hmem, hne, hd, hdne, hsilk, hdim⟩
    refine ⟨(rec.block, lm), hmem, ?_⟩
    have hE : lm.isEmpty = false := by
      cases lm with
      | nil => exact absurd rfl hne
      | cons q tl => rfl
    have hdE : rec.distrib.isEmpty = false := by
      cases hdis : rec.distrib with
      | nil => exact absurd hdis hdne
      | cons q tl => rfl
    rw [hE]
    simp only [Bool.false_eq_true, if_false, hd, hdE]
    cases rec with
    | mk b dis s dm =>
        simp only at hsilk hdim
        rw [hsilk, hdim]

/-- The distribution-contract of claim C5 for one nonempty level map:
the token list exists, has one token per level from `depth_limit` to
`min(max_key, 255)`, each token is `(level+offset, value-or-0)`, and
`maxKey` really is the largest observed level. -/
def DistribSpecStatement (freqs : LevelFreqs) (version : RegionVersion) : Prop :=
  ∃ tokens, freqs_to_distrib freqs version = some tokens ∧
    tokens.length = (min (maxKey freqs) 255 + distribOffset version + 1).toNat ∧
    (∀ i (hi : i < tokens.length),
      tokens.get ⟨i, hi⟩ =
        ((-(distribOffset version) + i + distribOffset version).toNat,
          (lookupKV (-(distribOffset version) + i) freqs).getD 0)) ∧
    maxKey freqs ∈ freqs.map Prod.fst ∧ (∀ p ∈ freqs, p.1 ≤ maxKey freqs)

/-- C5: the distribution list uses `offset = 0` for `Pre118` and `64`
for `AtLeast118`, contains exactly one `(level+offset, value)` token per
level from `depth_limit = -offset` to `min(max_observed_level, 255)`
inclusive with missing levels read as `0`, and `generate_JER_json`
omits entirely any block whose level map or resulting distribution is
empty. -/
theorem c5_distrib_and_export_spec (freqs : LevelFreqs) (version : RegionVersion)
    (h : freqs ≠ []) :
    distribOffset RegionVersion.Pre118 = 0 ∧
    distribOffset RegionVersion.AtLeast118 = 64 ∧
    DistribSpecStatement freqs version ∧
    ∀ (bf : BlockFrequencies) (v : RegionVersion) (rec : BlockJERDistributionData),
      rec ∈ generate_JER_json [(bf, v)] ↔
        ∃ lm, (rec.block, lm) ∈ bf.frequencies ∧ lm ≠ [] ∧
          freqs_to_distrib lm v = some rec.distrib ∧ rec.distrib ≠ [] ∧
          rec.silktouch = false ∧ rec.dim = bf.dimension := by
  refine ⟨rfl, rfl, ?_, generate_JER_json_mem⟩
  refine ⟨_, freqs_to_distrib_eq freqs version h, ?_, ?_, maxKey_mem freqs h,
    fun p hp => le_maxKey freqs p hp⟩
  · exact freqs_to_distrib_length freqs version h _ (freqs_to_distrib_eq freqs version h)
  · exact freqs_to_distrib_get freqs version h _ (freqs_to_distrib_eq freqs version h)

/-- Witness for C5 at a concrete level map. -/
theorem c5_distrib_and_export_spec_witness :
    ([((-10 : ℤ), (1 : ℚ)/2)] : LevelFreqs) ≠ [] ∧
    (distribOffset RegionVersion.Pre118 = 0 ∧
      distribOffset RegionVersion.AtLeast118 = 64 ∧
      DistribSpecStatement [((-10 : ℤ), (1 : ℚ)/2)] RegionVersion.AtLeast118 ∧
      ∀ (bf : BlockFrequencies) (v : RegionVersion) (rec : BlockJERDistributionData),
        rec ∈ generate_JER_json [(bf, v)] ↔
          ∃ lm, (rec.block, lm) ∈ bf.frequencies ∧ lm ≠ [] ∧
            freqs_to_distrib lm v = some rec.distrib ∧ rec.distrib ≠ [] ∧
            rec.silktouch = false ∧ rec.dim = bf.dimension) :=
  ⟨List.cons_ne_nil _ _,
    c5_distrib_and_export_spec [((-10 : ℤ), (1 : ℚ)/2)] RegionVersion.AtLeast118
      (List.cons_ne_nil _ _)⟩

/-! ## C6: distribution-string offset at raw level -10 -/

/-- A level map with a single entry at raw level `-10`. -/
def c6LevelMap : LevelFreqs := [(-10, 1/2)]

def c6Freqs : BlockFrequencies where
  frequencies := [("minecraft:ancient_debris", c6LevelMap)]
  blocks_counted := 4096
  chunks_counted := 16
  protochunks_seen := 0
  area := 4096
  dimension := "minecraft:the_nether"

/-- Counterexample to C6: under `Pre118` the depth limit is `0`, so a
block present only at raw level `-10` yields an *empty* distribution
and is dropped from the JER export entirely — no token with level `-10`
is ever emitted. -/
theorem c6_pre118_counterexample :
    freqs_to_distrib c6LevelMap RegionVersion.Pre118 = some [] ∧
    generate_JER_json [(c6Freqs, RegionVersion.Pre118)] = [] := by
  constructor <;> rfl

/-- C6 (amended): under `AtLeast118` the block at raw level `-10` is
exported with token level `54 = -10 + 64` and its stored value (every
other token of the 55-token list carries value `0` at a different
level); under `Pre118` the distribution is empty and the block is
omitted from the export. -/
theorem c6_amended_offset :
    (∃ tokens, freqs_to_distrib c6LevelMap RegionVersion.AtLeast118 = some tokens ∧
      tokens.length = 55 ∧ ((54 : ℕ), (1 : ℚ)/2) ∈ tokens ∧
      ∀ v, ((54 : ℕ), v) ∈ tokens → v = 1/2) ∧
    freqs_to_distrib c6LevelMap RegionVersion.Pre118 = some [] ∧
    generate_JER_json [(c6Freqs, RegionVersion.Pre118)] = [] := by
  have hne : c6LevelMap ≠ [] := List.cons_ne_nil _ _
  have heq := freqs_to_distrib_eq c6LevelMap RegionVersion.AtLeast118 hne
  refine ⟨⟨_, heq, ?_, ?_, ?_⟩, rfl, rfl⟩
  · exact (freqs_to_distrib_length c6LevelMap RegionVersion.AtLeast118 hne _ heq).trans
      (by decide)
  · have hlen := (freqs_to_distrib_length c6LevelMap RegionVersion.AtLeast118 hne _ heq).trans
      (by decide : (min (maxKey c6LevelMap) 255 +
        distribOffset RegionVersion.AtLeast118 + 1).toNat = 55)
    have h54 : (54 : ℕ) <
        ((intsFromTo (-(distribOffset RegionVersion.AtLeast118))
          (min (maxKey c6LevelMap) 255)).map fun y =>
            ((y + distribOffset RegionVersion.AtLeast118).toNat,
              (lookupKV y c6LevelMap).getD 0)).length := by
      rw [hlen]
      omega
    have hv := freqs_to_distrib_get c6LevelMap RegionVersion.AtLeast118 hne _ heq 54 h54
    have hv' : ((intsFromTo (-(distribOffset RegionVersion.AtLeast118))
        (min (maxKey c6LevelMap) 255)).map fun y =>
          ((y + distribOffset RegionVersion.AtLeast118).toNat,
            (lookupKV y c6LevelMap).getD 0)).get ⟨54, h54⟩ = ((54 : ℕ), (1 : ℚ)/2) := by
      rw [hv]
      rfl
    rw [← hv']
    exact List.get_mem _ 54 h54
  · intro v hvm
    obtain ⟨⟨i, hi⟩, hgi⟩ := List.mem_iff_get.mp hvm
    rw [freqs_to_distrib_get c6LevelMap RegionVersion.AtLeast118 hne _ heq i hi] at hgi
    rw [Prod.ext_iff] at hgi
    obtain ⟨h1, h2⟩ := hgi
    simp only [distribOffset] at h1 h2
    have hi54 : i = 54 := by omega
    subst hi54
    rw [← h2]
    rfl

/-! ## ChunkCounter / RegionAggregator (`count_blocks`, `count_frequencies`)

A decoded chunk (the external `JavaChunk` after a successful
`JavaChunk::from_bytes`) is modelled by its status string, its vertical
range `y_range()` (half-open, `yLo..yHi`) and its block lookup.  The
chunk stream `chunks(region).flatten()` together with the decode attempt
is modelled as a `List (Option DecodedChunk)`: a `none` entry is a
present chunk whose deserialisation failed (silently skipped by the
source). -/

structure DecodedChunk where
  status : String
  yLo : ℤ
  yHi : ℤ
  block : ℤ → ℤ → ℤ → Option String

/-- The iteration order of the counting closure: `iproduct!(y_range,
0..16, 0..16)`, i.e. `(y, z, x)` with `x` fastest. -/
def chunkCoords (c : DecodedChunk) : List (ℤ × ℤ × ℤ) :=
  (intsFromTo c.yLo (c.yHi - 1)).flatMap fun y =>
    (List.range 16).flatMap fun z =>
      (List.range 16).map fun x : ℕ => (y, (z : ℤ), (x : ℤ))

/-- `struct BlockCounts` from `lib.rs`. -/
structure BlockCounts where
  counts : List (String × List (ℤ × ℕ))
  blocks_counted : ℕ
  chunks_counted : ℕ
  protochunks_seen : ℕ
  dimension : String
deriving DecidableEq, Repr

/-- The four mutable accumulators of `count_blocks`. -/
structure CountState where
  counts : List (String × List (ℤ × ℕ))
  blocks_counted : ℕ
  chunks_counted : ℕ
  protochunks_seen : ℕ
deriving DecidableEq, Repr

def initState : CountState where
  counts := []
  blocks_counted := 0
  chunks_counted := 0
  protochunks_seen := 0

/-- `counts.entry(name).or_default().entry(y).or_insert(0) += 1`,
inner level. -/
def bumpLevel (m : List (ℤ × ℕ)) (y : ℤ) : List (ℤ × ℕ) :=
  if (lookupKV y m).isSome then
    m.map fun q => if q.1 = y then (q.1, q.2 + 1) else q
  else m ++ [(y, 1)]

/-- `counts.entry(name).or_default().entry(y).or_insert(0) += 1`. -/
def bumpBlock (counts : List (String × List (ℤ × ℕ))) (name : String) (y : ℤ) :
    List (String × List (ℤ × ℕ)) :=
  if (lookupKV name counts).isSome then
    counts.map fun p => if p.1 = name then (p.1, bumpLevel p.2 y) else p
  else counts ++ [(name, bumpLevel [] y)]

/-- The counting closure of `count_blocks` applied to one chunk: every
`(y,z,x)` triple counts toward `blocks_counted`; triples with a block
present also bump the per-name, per-level count; `chunks_counted`
increments once. -/
def processChunk (st : CountState) (c : DecodedChunk) : CountState where
  counts := (chunkCoords c).foldl (fun cs t =>
    match c.block t.2.2 t.1 t.2.1 with
    | some name => bumpBlock cs name t.1
    | none => cs) st.counts
  blocks_counted := st.blocks_counted + (chunkCoords c).length
  chunks_counted := st.chunks_counted + 1
  protochunks_seen := st.protochunks_seen

/-- The full/protochunk classification of `count_blocks`. -/
def isFull (c : DecodedChunk) : Bool :=
  c.status == "minecraft:full" || c.status == "full"

/-- One iteration of the `for data in chunks(region).flatten()` loop of
`count_blocks`: undecodable chunks are skipped silently; protochunks
always bump `protochunks_seen` and are skipped under `Skip`; full
chunks are skipped under `OnlyProto`. -/
def countStep (proto : ProtoOption) (st : CountState) (oc : Option DecodedChunk) :
    CountState :=
  match oc with
  | none => st
  | some c =>
      if !(isFull c) then
        let st' := { st with protochunks_seen := st.protochunks_seen + 1 }
        if proto = ProtoOption.Skip then st' else processChunk st' c
      else if proto = ProtoOption.OnlyProto then st
      else processChunk st c

/-- `count_blocks` from `lib.rs` (the `verbose` flag only controls
logging and is not modelled). -/
def count_blocks (slots : List (Option DecodedChunk)) (dimension : String)
    (proto : ProtoOption) : BlockCounts :=
  let final := slots.foldl (countStep proto) initState
  { counts := final.counts
    blocks_counted := final.blocks_counted
    chunks_counted := final.chunks_counted
    protochunks_seen := final.protochunks_seen
    dimension := dimension }

/-- `count as f64 / d_area` from `count_frequencies`. -/
def scaleCount (area : ℕ) (count : ℕ) : ℚ := (count : ℚ) / (area : ℚ)

/-- `count_frequencies` from `lib.rs`. -/
def count_frequencies (slots : List (Option DecodedChunk)) (dimension : String)
    (proto : ProtoOption) : BlockFrequencies :=
  let counting_results := count_blocks slots dimension proto
  let area : ℕ := (16 * 16) * counting_results.chunks_counted
  { frequencies := counting_results.counts.map fun p =>
      (p.1, p.2.map fun q => (q.1, scaleCount area q.2))
    blocks_counted := counting_results.blocks_counted
    chunks_counted := counting_results.chunks_counted
    protochunks_seen := counting_results.protochunks_seen
    area := area
    dimension := counting_results.dimension }

/-- The decodable chunks of a slot list. -/
def decodables (slots : List (Option DecodedChunk)) : List DecodedChunk :=
  slots.filterMap id

def fullChunks (slots : List (Option DecodedChunk)) : List DecodedChunk :=
  (decodables slots).filter fun c => isFull c

def protoChunks (slots : List (Option DecodedChunk)) : List DecodedChunk :=
  (decodables slots).filter fun c => !(isFull c)

/-- Unconditional processing of a chunk list. -/
def processAll (cs : List DecodedChunk) (st : CountState) : CountState :=
  cs.foldl processChunk st

theorem processAll_protoSeen (cs : List DecodedChunk) (st : CountState) :
    (processAll cs st).protochunks_seen = st.protochunks_seen := by
  induction cs generalizing st with
  | nil => rfl
  | cons c tl ih => exact ih (processChunk st c)

theorem processAll_chunks (cs : List DecodedChunk) (st : CountState) :
    (processAll cs st).chunks_counted = st.chunks_counted + cs.length := by
  induction cs generalizing st with
  | nil => rfl
  | cons c tl ih =>
      show (processAll tl (processChunk st c)).chunks_counted = _
      rw [ih (processChunk st c)]
      show st.chunks_counted + 1 + tl.length = st.chunks_counted + (tl.length + 1)
      omega

theorem processAll_set_protoSeen (cs : List DecodedChunk) (st : CountState) (p : ℕ) :
    processAll cs { st with protochunks_seen := p } =
      { processAll cs st with protochunks_seen := p } := by
  induction cs generalizing st with
  | nil => rfl
  | cons c tl ih =>
      show processAll tl (processChunk { st with protochunks_seen := p } c) = _
      rw [show processChunk { st with protochunks_seen := p } c =
        { processChunk st c with protochunks_seen := p } from rfl]
      exact ih (processChunk st c)

/-- The `Skip` policy: the fold processes exactly the full decodable
chunks, while `protochunks_seen` counts every decodable protochunk. -/
theorem foldl_countStep_skip (slots : List (Option DecodedChunk)) (st : CountState) :
    slots.foldl (countStep ProtoOption.Skip) st =
      { processAll (fullChunks slots) st with
          protochunks_seen := st.protochunks_seen + (protoChunks slots).length } := by
  induction slots generalizing st with
  | nil =>
      show st = _
      rw [show protoChunks [] = [] from rfl]
      show st = { st with protochunks_seen := st.protochunks_seen + 0 }
      rw [Nat.add_zero]
  | cons oc rest ih =>
      cases oc with
      | none =>
          show List.foldl (countStep ProtoOption.Skip) st rest = _
          rw [ih st,
            show fullChunks (none :: rest) = fullChunks rest from rfl,
            show protoChunks (none :: rest) = protoChunks rest from rfl]
      | some c =>
          by_cases hf : isFull c
          · show List.foldl (countStep ProtoOption.Skip)
              (countStep ProtoOption.Skip st (some c)) rest = _
            rw [show countStep ProtoOption.Skip st (some c) = processChunk st c from by
              simp [countStep, hf]]
            rw [ih (processChunk st c)]
            have h1 : fullChunks (some c :: rest) = c :: fullChunks rest := by
              simp [fullChunks, decodables, hf]
            have h2 : protoChunks (some c :: rest) = protoChunks rest := by
              simp [protoChunks, decodables, hf]
            rw [h1, h2]
            rfl
          · show List.foldl (countStep ProtoOption.Skip)
              (countStep ProtoOption.Skip st (some c)) rest = _
            rw [show countStep ProtoOption.Skip st (some c) =
              { st with protochunks_seen := st.protochunks_seen + 1 } from by
                simp [countStep, hf]]
            rw [ih _, processAll_set_protoSeen]
            have h1 : fullChunks (some c :: rest) = fullChunks rest := by
              simp [fullChunks, decodables, hf]
            have h2 : protoChunks (some c :: rest) = c :: protoChunks rest := by
              simp [protoChunks, decodables, hf]
            rw [h1, h2]
            show { processAll (fullChunks rest) st with
                protochunks_seen := st.protochunks_seen + 1 + (protoChunks rest).length } = _
            rw [show (c :: protoChunks rest).length = (protoChunks rest).length + 1 from rfl]
            rw [show st.protochunks_seen + 1 + (protoChunks rest).length =
              st.protochunks_seen + ((protoChunks rest).length + 1) from by omega]

/-- The `OnlyProto` policy: the fold processes exactly the decodable
protochunks. -/
theorem foldl_countStep_onlyProto (slots : List (Option DecodedChunk)) (st : CountState) :
    slots.foldl (countStep ProtoOption.OnlyProto) st =
      { processAll (protoChunks slots) st with
          protochunks_seen := st.protochunks_seen + (protoChunks slots).length } := by
  induction slots generalizing st with
  | nil =>
      show st = _
      rw [show protoChunks [] = [] from rfl]
      show st = { st with protochunks_seen := st.protochunks_seen + 0 }
      rw [Nat.add_zero]
  | cons oc rest ih =>
      cases oc with
      | none =>
          show List.foldl (countStep ProtoOption.OnlyProto) st rest = _
          rw [ih st,
            show protoChunks (none :: rest) = protoChunks rest from rfl]
      | some c =>
          by_cases hf : isFull c
          · show List.foldl (countStep ProtoOption.OnlyProto)
              (countStep ProtoOption.OnlyProto st (some c)) rest = _
            rw [show countStep ProtoOption.OnlyProto st (some c) = st from by
              simp [countStep, hf]]
            rw [ih st]
            have h2 : protoChunks (some c :: rest) = protoChunks rest := by
              simp [protoChunks, decodables, hf]
            rw [h2]
          · show List.foldl (countStep ProtoOption.OnlyProto)
              (countStep ProtoOption.OnlyProto st (some c)) rest = _
            rw [show countStep ProtoOption.OnlyProto st (some c) =
              processChunk { st with protochunks_seen := st.protochunks_seen + 1 } c from by
                simp [countStep, hf]]
            rw [show processChunk { st with protochunks_seen := st.protochunks_seen + 1 } c =
              { processChunk st c with protochunks_seen := st.protochunks_seen + 1 } from rfl]
            rw [ih _, processAll_set_protoSeen]
            have h2 : protoChunks (some c :: rest) = c :: protoChunks rest := by
              simp [protoChunks, decodables, hf]
            rw [h2]
            show { processAll (protoChunks rest) (processChunk st c) with
                protochunks_seen := st.protochunks_seen + 1 + (protoChunks rest).length } = _
            rw [show (c :: protoChunks rest).length = (protoChunks rest).length + 1 from rfl]
            rw [show st.protochunks_seen + 1 + (protoChunks rest).length =
              st.protochunks_seen + ((protoChunks rest).length + 1) from by omega]
            rfl

/-- The `Include` policy: the fold processes every decodable chunk, and
`protochunks_seen` still counts only the protochunks. -/
theorem foldl_countStep_include (slots : List (Option DecodedChunk)) (st : CountState) :
    slots.foldl (countStep ProtoOption.Include) st =
      { processAll (decodables slots) st with
          protochunks_seen := st.protochunks_seen + (protoChunks slots).length } := by
  induction slots generalizing st with
  | nil =>
      show st = _
      rw [show protoChunks [] = [] from rfl]
      show st = { st with protochunks_seen := st.protochunks_seen + 0 }
      rw [Nat.add_zero]
  | cons oc rest ih =>
      cases oc with
      | none =>
          show List.foldl (countStep ProtoOption.Include) st rest = _
          rw [ih st,
            show decodables (none :: rest) = decodables rest from rfl,
            show protoChunks (none :: rest) = protoChunks rest from rfl]
      | some c =>
          have hdec : decodables (some c :: rest) = c :: decodables rest := rfl
          by_cases hf : isFull c
          · show List.foldl (countStep ProtoOption.Include)
              (countStep ProtoOption.Include st (some c)) rest = _
            rw [show countStep ProtoOption.Include st (some c) = processChunk st c from by
              simp [countStep, hf]]
            rw [ih (processChunk st c)]
            have h2 : protoChunks (some c :: rest) = protoChunks rest := by
              simp [protoChunks, decodables, hf]
            rw [hdec, h2]
            rfl
          · show List.foldl (countStep ProtoOption.Include)
              (countStep ProtoOption.Include st (some c)) rest = _
            rw [show countStep ProtoOption.Include st (some c) =
              processChunk { st with protochunks_seen := st.protochunks_seen + 1 } c from by
                simp [countStep, hf]]
            rw [show processChunk { st with protochunks_seen := st.protochunks_seen + 1 } c =
              { processChunk st c with protochunks_seen := st.protochunks_seen + 1 } from rfl]
            rw [ih _, processAll_set_protoSeen]
            have h2 : protoChunks (some c :: rest) = c :: protoChunks rest := by
              simp [protoChunks, decodables, hf]
            rw [hdec, h2]
            show { processAll (decodables rest) (processChunk st c) with
                protochunks_seen := st.protochunks_seen + 1 + (protoChunks rest).length } = _
            rw [show (c :: protoChunks rest).length = (protoChunks rest).length + 1 from rfl]
            rw [show st.protochunks_seen + 1 + (protoChunks rest).length =
              st.protochunks_seen + ((protoChunks rest).length + 1) from by omega]
            rfl

theorem count_blocks_skip_eq (slots : List (Option DecodedChunk)) (d : String) :
    count_blocks slots d ProtoOption.Skip =
      { counts := (processAll (fullChunks slots) initState).counts
        blocks_counted := (processAll (fullChunks slots) initState).blocks_counted
        chunks_counted := (processAll (fullChunks slots) initState).chunks_counted
        protochunks_seen := (protoChunks slots).length
        dimension := d } := by
  unfold count_blocks
  rw [foldl_countStep_skip slots initState]
  dsimp only
  simp [BlockCounts.mk.injEq, initState]

theorem count_blocks_onlyProto_eq (slots : List (Option DecodedChunk)) (d : String) :
    count_blocks slots d ProtoOption.OnlyProto =
      { counts := (processAll (protoChunks slots) initState).counts
        blocks_counted := (processAll (protoChunks slots) initState).blocks_counted
        chunks_counted := (processAll (protoChunks slots) initState).chunks_counted
        protochunks_seen := (protoChunks slots).length
        dimension := d } := by
  unfold count_blocks
  rw [foldl_countStep_onlyProto slots initState]
  dsimp only
  simp [BlockCounts.mk.injEq, initState]

theorem count_blocks_include_eq (slots : List (Option DecodedChunk)) (d : String) :
    count_blocks slots d ProtoOption.Include =
      { counts := (processAll (decodables slots) initState).counts
        blocks_counted := (processAll (decodables slots) initState).blocks_counted
        chunks_counted := (processAll (decodables slots) initState).chunks_counted
        protochunks_seen := (protoChunks slots).length
        dimension := d } := by
  unfold count_blocks
  rw [foldl_countStep_include slots initState]
  dsimp only
  simp [BlockCounts.mk.injEq, initState]

theorem count_blocks_chunks_skip (slots : List (Option DecodedChunk)) (d : String) :
    (count_blocks slots d ProtoOption.Skip).chunks_counted = (fullChunks slots).length := by
  rw [count_blocks_skip_eq]
  show (processAll (fullChunks slots) initState).chunks_counted = _
  rw [processAll_chunks]
  exact Nat.zero_add _

theorem count_blocks_chunks_onlyProto (slots : List (Option DecodedChunk)) (d : String) :
    (count_blocks slots d ProtoOption.OnlyProto).chunks_counted =
      (protoChunks slots).length := by
  rw [count_blocks_onlyProto_eq]
  show (processAll (protoChunks slots) initState).chunks_counted = _
  rw [processAll_chunks]
  exact Nat.zero_add _

theorem count_blocks_chunks_include (slots : List (Option DecodedChunk)) (d : String) :
    (count_blocks slots d ProtoOption.Include).chunks_counted =
      (decodables slots).length := by
  rw [count_blocks_include_eq]
  show (processAll (decodables slots) initState).chunks_counted = _
  rw [processAll_chunks]
  exact Nat.zero_add _

/-- Zero counted chunks forces an empty raw count table. -/
theorem count_blocks_counts_nil (slots : List (Option DecodedChunk)) (d : String)
    (proto : ProtoOption) (h : (count_blocks slots d proto).chunks_counted = 0) :
    (count_blocks slots d proto).counts = [] := by
  cases proto with
  | Skip =>
      have hc := count_blocks_chunks_skip slots d
      rw [h] at hc
      have hnil : fullChunks slots = [] := List.length_eq_zero.mp hc.symm
      rw [count_blocks_skip_eq]
      show (processAll (fullChunks slots) initState).counts = []
      rw [hnil]
      rfl
  | OnlyProto =>
      have hc := count_blocks_chunks_onlyProto slots d
      rw [h] at hc
      have hnil : protoChunks slots = [] := List.length_eq_zero.mp hc.symm
      rw [count_blocks_onlyProto_eq]
      show (processAll (protoChunks slots) initState).counts = []
      rw [hnil]
      rfl
  | Include =>
      have hc := count_blocks_chunks_include slots d
      rw [h] at hc
      have hnil : decodables slots = [] := List.length_eq_zero.mp hc.symm
      rw [count_blocks_include_eq]
      show (processAll (decodables slots) initState).counts = []
      rw [hnil]
      rfl

/-- Raw count lookup of a `(block, level)` pair. -/
def countAt (bc : BlockCounts) (name : String) (y : ℤ) : Option ℕ :=
  (lookupKV name bc.counts).bind (lookupKV y)

theorem lookup_scaled (counts : List (String × List (ℤ × ℕ))) (A : ℕ) (name : String) :
    lookupKV name (counts.map fun p => (p.1, p.2.map fun q => (q.1, scaleCount A q.2))) =
      (lookupKV name counts).map fun m => m.map fun q => (q.1, scaleCount A q.2) := by
  induction counts with
  | nil => rfl
  | cons p rest ih => by_cases h : p.1 = name <;> simp [lookupKV, h, ih]

theorem lookup_scaled_inner (m : List (ℤ × ℕ)) (A : ℕ) (y : ℤ) :
    lookupKV y (m.map fun q => (q.1, scaleCount A q.2)) =
      (lookupKV y m).map (scaleCount A) := by
  induction m with
  | nil => rfl
  | cons q rest ih => by_cases h : q.1 = y <;> simp [lookupKV, h, ih]

/-- C8: a decoded chunk is classified full exactly when its status is
`"minecraft:full"` or `"full"`, and the three protochunk policies
process exactly the corresponding subsequence of decodable chunks
(protochunks contribute nothing under `Skip`; only protochunks
contribute under `OnlyProto`; everything contributes under `Include`),
tallying every decodable protochunk in `protochunks_seen`. -/
theorem c8_count_blocks_policy (slots : List (Option DecodedChunk)) (d : String) :
    (∀ c : DecodedChunk, isFull c = true ↔
      (c.status = "minecraft:full" ∨ c.status = "full")) ∧
    count_blocks slots d ProtoOption.Skip =
      { counts := (processAll (fullChunks slots) initState).counts
        blocks_counted := (processAll (fullChunks slots) initState).blocks_counted
        chunks_counted := (processAll (fullChunks slots) initState).chunks_counted
        protochunks_seen := (protoChunks slots).length
        dimension := d } ∧
    count_blocks slots d ProtoOption.OnlyProto =
      { counts := (processAll (protoChunks slots) initState).counts
        blocks_counted := (processAll (protoChunks slots) initState).blocks_counted
        chunks_counted := (processAll (protoChunks slots) initState).chunks_counted
        protochunks_seen := (protoChunks slots).length
        dimension := d } ∧
    count_blocks slots d ProtoOption.Include =
      { counts := (processAll (decodables slots) initState).counts
        blocks_counted := (processAll (decodables slots) initState).blocks_counted
        chunks_counted := (processAll (decodables slots) initState).chunks_counted
        protochunks_seen := (protoChunks slots).length
        dimension := d } :=
  ⟨fun c => by simp [isFull], count_blocks_skip_eq slots d,
    count_blocks_onlyProto_eq slots d, count_blocks_include_eq slots d⟩

/-- C10: under `Skip`, `protochunks_seen` still counts every decodable
chunk whose status is neither `"minecraft:full"` nor `"full"`, even
though those chunks contribute nothing to the counts, the block tally
or the chunk tally. -/
theorem c10_protochunks_tallied_under_skip (slots : List (Option DecodedChunk))
    (d : String) :
    (count_blocks slots d ProtoOption.Skip).protochunks_seen =
      ((slots.filterMap id).filter fun c =>
        !(c.status == "minecraft:full" || c.status == "full")).length ∧
    (count_blocks slots d ProtoOption.Skip).counts =
      (processAll (fullChunks slots) initState).counts ∧
    (count_blocks slots d ProtoOption.Skip).blocks_counted =
      (processAll (fullChunks slots) initState).blocks_counted ∧
    (count_blocks slots d ProtoOption.Skip).chunks_counted = (fullChunks slots).length := by
  refine ⟨?_, ?_, ?_, count_blocks_chunks_skip slots d⟩
  · rw [count_blocks_skip_eq]
    rfl
  · rw [count_blocks_skip_eq]
  · rw [count_blocks_skip_eq]

/-- C9: the frequencies are the raw counts divided by
`area = 256 × chunks_counted`, and a scan that counted zero chunks
yields an empty frequency table with area `0` as an ordinary (total)
result. -/
theorem c9_count_frequencies_spec (slots : List (Option DecodedChunk)) (d : String)
    (proto : ProtoOption) :
    (count_frequencies slots d proto).area =
      256 * (count_blocks slots d proto).chunks_counted ∧
    (∀ name y, freqAt (count_frequencies slots d proto) name y =
      (countAt (count_blocks slots d proto) name y).map
        (scaleCount (count_frequencies slots d proto).area)) ∧
    (∀ A c, scaleCount A c = (c : ℚ) / (A : ℚ)) ∧
    ((count_blocks slots d proto).chunks_counted = 0 →
      (count_frequencies slots d proto).frequencies = [] ∧
      (count_frequencies slots d proto).area = 0) := by
  refine ⟨rfl, ?_, fun A c => rfl, ?_⟩
  · intro name y
    show (lookupKV name ((count_blocks slots d proto).counts.map fun p =>
        (p.1, p.2.map fun q =>
          (q.1, scaleCount (16 * 16 * (count_blocks slots d proto).chunks_counted) q.2)))).bind
        (lookupKV y) =
      ((lookupKV name (count_blocks slots d proto).counts).bind (lookupKV y)).map
        (scaleCount (16 * 16 * (count_blocks slots d proto).chunks_counted))
    rw [lookup_scaled]
    cases lookupKV name (count_blocks slots d proto).counts with
    | none => rfl
    | some m =>
        show lookupKV y (m.map fun q =>
            (q.1, scaleCount (16 * 16 * (count_blocks slots d proto).chunks_counted) q.2)) =
          (lookupKV y m).map
            (scaleCount (16 * 16 * (count_blocks slots d proto).chunks_counted))
        exact lookup_scaled_inner m _ y
  · intro h
    constructor
    · show ((count_blocks slots d proto).counts.map fun p =>
        (p.1, p.2.map fun q =>
          (q.1, scaleCount (16 * 16 * (count_blocks slots d proto).chunks_counted) q.2))) = []
      rw [count_blocks_counts_nil slots d proto h]
      rfl
    · show 16 * 16 * (count_blocks slots d proto).chunks_counted = 0
      rw [h]

/-- A fully generated sample chunk: stone everywhere in one section. -/
def sampleChunkFull : DecodedChunk where
  status := "minecraft:full"
  yLo := 0
  yHi := 1
  block := fun x y z => some "minecraft:stone"

def sampleSlots : List (Option DecodedChunk) := [some sampleChunkFull, none]

/-- Witness for C9 at a concrete slot list. -/
theorem c9_count_frequencies_spec_witness :
    (count_frequencies sampleSlots "minecraft:overworld" ProtoOption.Skip).area =
      256 * (count_blocks sampleSlots "minecraft:overworld" ProtoOption.Skip).chunks_counted ∧
    (∀ name y, freqAt
        (count_frequencies sampleSlots "minecraft:overworld" ProtoOption.Skip) name y =
      (countAt (count_blocks sampleSlots "minecraft:overworld" ProtoOption.Skip) name y).map
        (scaleCount
          (count_frequencies sampleSlots "minecraft:overworld" ProtoOption.Skip).area)) ∧
    (∀ A c, scaleCount A c = (c : ℚ) / (A : ℚ)) ∧
    ((count_blocks sampleSlots "minecraft:overworld" ProtoOption.Skip).chunks_counted = 0 →
      (count_frequencies sampleSlots "minecraft:overworld"
        ProtoOption.Skip).frequencies = [] ∧
      (count_frequencies sampleSlots "minecraft:overworld" ProtoOption.Skip).area = 0) :=
  c9_count_frequencies_spec sampleSlots "minecraft:overworld" ProtoOption.Skip

end RegionScanner
